import Mathlib

/-!
Verification of the extraction/normalization engine of the upwork-job-dashboard
repository (`src/functions.py`, row pipeline of `src/1-data_prep.py`).

The Python functions are shallowly embedded over `List Char` (the source data is
ASCII, so Python's `str.lower`, `str.strip`, `\d`, `\s` are modelled on their
ASCII behaviour).  Numbers are modelled as `ℚ`; Python's `float('nan')` /
`np.nan` is modelled as `Option.none`.  A raised Python exception (`float` on an
invalid literal raises `ValueError`) is modelled by the `Py.exn` constructor.

The regular-expression searches of `functions.py` use patterns in which every
quantifier is forced (no character can be consumed by two adjacent pattern
pieces), so `re.search` is embedded as a deterministic leftmost scan
(`searchWith`) of a deterministic match-at-position function.
-/

namespace Upwork

/-- Result of running a Python function: a returned value, or a raised
exception (`ValueError`). -/
inductive Py (α : Type) : Type
  | ok : α → Py α
  | exn : Py α
deriving DecidableEq, Repr

/-- ASCII decimal digits, the characters matched by `\d` on this data. -/
def digitChars : List Char := ['0', '1', '2', '3', '4', '5', '6', '7', '8', '9']

/-- Characters matched by the regex class `\d` (ASCII). -/
def isDigitCh (c : Char) : Bool := decide (c ∈ digitChars)

/-- ASCII whitespace, the characters matched by `\s` and stripped by `str.strip`. -/
def spaceChars : List Char := [' ', '\t', '\n', '\x0b', '\x0c', '\r']

/-- Characters matched by the regex class `\s` (ASCII). -/
def isSpaceCh (c : Char) : Bool := decide (c ∈ spaceChars)

/-- Characters matched by the regex class `[\d,\.]` of `parse_hourly_rate` and
`parse_fixed_price`. -/
def isAmountCh (c : Char) : Bool := isDigitCh c || decide (c = ',') || decide (c = '.')

/-- ASCII lowercasing of one character, as `str.lower` does on this data. -/
def toLowerCh (c : Char) : Char :=
  if 'A' ≤ c ∧ c ≤ 'Z' then Char.ofNat (c.toNat + 32) else c

/-- ASCII uppercasing of one character. -/
def toUpperCh (c : Char) : Char :=
  if 'a' ≤ c ∧ c ≤ 'z' then Char.ofNat (c.toNat - 32) else c

/-- `str.lower` on an ASCII string. -/
def lowerStr (s : List Char) : List Char := s.map toLowerCh

/-- ASCII letters, the cased characters relevant to `str.title`. -/
def isAlphaCh (c : Char) : Bool :=
  decide ('a' ≤ c ∧ c ≤ 'z') || decide ('A' ≤ c ∧ c ≤ 'Z')

/-- Worker for `str.title`: the flag records whether the previous character was
cased; a cased character after an uncased one is uppercased, any other cased
character is lowercased. -/
def pyTitleGo : Bool → List Char → List Char
  | _, [] => []
  | prev, c :: t =>
    if isAlphaCh c then (if prev then toLowerCh c else toUpperCh c) :: pyTitleGo true t
    else c :: pyTitleGo false t

/-- Python `str.title` (ASCII). -/
def pyTitle (s : List Char) : List Char := pyTitleGo false s

/-- Python `str.strip()` (ASCII whitespace). -/
def pyStrip (s : List Char) : List Char :=
  ((s.dropWhile isSpaceCh).reverse.dropWhile isSpaceCh).reverse

/-- Substring test, as Python's `in` operator on strings. -/
def containsSub (p : List Char) : List Char → Bool
  | [] => p.isPrefixOf []
  | c :: t => p.isPrefixOf (c :: t) || containsSub p t

/-- Numeric value of a digit string (`float` / `int` of a `\d+` group). -/
def natOfDigits (ds : List Char) : Nat :=
  ds.foldl (fun a c => 10 * a + (c.toNat - 48)) 0

/-- Value of Python `float(ip + "." + fp)` for digit strings `ip`, `fp`. -/
def ratOfParts (ip fp : List Char) : ℚ :=
  (natOfDigits ip : ℚ) + (natOfDigits fp : ℚ) / (10 ^ fp.length)

/-- Python `float(g.replace(',', ''))` for a group `g` matched by `[\d,\.]+`:
after removing commas the literal is valid iff it has at most one dot and at
least one digit; otherwise `float` raises `ValueError`, modelled as `none`. -/
def pyFloat (g : List Char) : Option ℚ :=
  let h := g.filter (fun c => c != ',')
  let ip := h.takeWhile (fun c => c != '.')
  match h.dropWhile (fun c => c != '.') with
  | [] => if ip = [] then none else some (natOfDigits ip : ℚ)
  | _ :: fp =>
    if fp.contains '.' then none
    else if ip = [] ∧ fp = [] then none
    else some (ratOfParts ip fp)

/-- Leftmost regex search: try the match-at-position function `f` at every
start position from the left, as `re.search` does. -/
def searchWith {α : Type} (f : List Char → Option α) : List Char → Option α
  | [] => f []
  | c :: t =>
    match f (c :: t) with
    | some v => some v
    | none => searchWith f t

/-- The literal piece `hr` of the pattern `hrs?/week`. -/
def hrLit : List Char := ['h', 'r']

/-- The literal piece `/week` of the pattern `hrs?/week`. -/
def slashWeekLit : List Char := ['/', 'w', 'e', 'e', 'k']

/-- The literal `to` of the range pattern of `parse_duration_weeks`. -/
def toLit : List Char := ['t', 'o']

/-- The literal piece `month` of the patterns of `parse_duration_weeks`. -/
def monthLit : List Char := ['m', 'o', 'n', 't', 'h']

/-- The substring `hourly` tested by `get_pay_type` / `estimate_total_pay`. -/
def hourlyLit : List Char := ['h', 'o', 'u', 'r', 'l', 'y']

/-- The substring `fixed` tested by `get_pay_type` / `estimate_total_pay`. -/
def fixedLit : List Char := ['f', 'i', 'x', 'e', 'd']

/-- The fallback phrase `less than` of `parse_hours_per_week`. -/
def lessThanLit : List Char := "less than".data

/-- The fallback phrase `less than 1 month` of `parse_duration_weeks`. -/
def lessThanMonthLit : List Char := "less than 1 month".data

/-- The optional `\+?` of the hours pattern: consume a leading `+` if present. -/
def dropPlusHead (l : List Char) : List Char :=
  if l.head? = some '+' then l.tail else l

/-- The `hrs?/week` piece of the hours pattern against the rest of the text:
after `hr`, a present `s` must be consumed (greedy; backtracking to a zero-width
`s?` cannot succeed because `/week` does not start with `s`). -/
def hrsWeekTail : List Char → Bool
  | 'h' :: 'r' :: 's' :: r5 => slashWeekLit.isPrefixOf r5
  | 'h' :: 'r' :: r4 => slashWeekLit.isPrefixOf r4
  | _ => false

/-- Match of `(\d+)\+?\s*hrs?/week` at the start of `cs`.  Every quantifier of
the pattern is forced (a digit can continue neither `\+?` nor `\s*` nor `h`,
etc.), so the backtracking search at one position is this deterministic
function. -/
def hoursAt (cs : List Char) : Option Nat :=
  if cs.takeWhile isDigitCh = [] then none
  else if hrsWeekTail ((dropPlusHead (cs.dropWhile isDigitCh)).dropWhile isSpaceCh)
  then some (natOfDigits (cs.takeWhile isDigitCh))
  else none

/-- `re.search(r"(\d+)\+?\s*hrs?/week", s)`. -/
def searchHours (s : List Char) : Option Nat := searchWith hoursAt s

/-- The `to\s*(\d+)\s*months?` piece of the range pattern against the rest of
the text, returning the value of the second group. -/
def rangeTail : List Char → Option Nat
  | 't' :: 'o' :: r2 =>
    if (r2.dropWhile isSpaceCh).takeWhile isDigitCh = [] then none
    else if monthLit.isPrefixOf
        (((r2.dropWhile isSpaceCh).dropWhile isDigitCh).dropWhile isSpaceCh)
    then some (natOfDigits ((r2.dropWhile isSpaceCh).takeWhile isDigitCh))
    else none
  | _ => none

/-- Match of `(\d+)\s*to\s*(\d+)\s*months?` at the start of `cs` (quantifiers
forced as in `hoursAt`; the trailing `s?` cannot affect success). -/
def rangeAt (cs : List Char) : Option (Nat × Nat) :=
  if cs.takeWhile isDigitCh = [] then none
  else
    match rangeTail ((cs.dropWhile isDigitCh).dropWhile isSpaceCh) with
    | some b => some (natOfDigits (cs.takeWhile isDigitCh), b)
    | none => none

/-- `re.search(r"(\d+)\s*to\s*(\d+)\s*months?", s)`. -/
def searchRange (s : List Char) : Option (Nat × Nat) := searchWith rangeAt s

/-- Match of `(\d+)\s*months?` at the start of `cs`. -/
def monthsAt (cs : List Char) : Option Nat :=
  if cs.takeWhile isDigitCh = [] then none
  else if monthLit.isPrefixOf ((cs.dropWhile isDigitCh).dropWhile isSpaceCh)
  then some (natOfDigits (cs.takeWhile isDigitCh))
  else none

/-- `re.search(r"(\d+)\s*months?", s)`. -/
def searchMonths (s : List Char) : Option Nat := searchWith monthsAt s

/-- The optional group `(?:\s*-\s*\$([\d,\.]+))?` against the rest of the
text: `none` means the group did not participate. -/
def rateSnd : List Char → Option (List Char)
  | '-' :: r2 =>
    match r2.dropWhile isSpaceCh with
    | '$' :: r3 =>
      if r3.takeWhile isAmountCh = [] then none else some (r3.takeWhile isAmountCh)
    | _ => none
  | _ => none

/-- Match of `\$([\d,\.]+)(?:\s*-\s*\$([\d,\.]+))?` at the start of `cs`,
returning the two groups.  The optional range group is at the end of the
pattern, so its failure backtracks to a one-amount match. -/
def rateAt (cs : List Char) : Option (List Char × Option (List Char)) :=
  match cs with
  | '$' :: rest =>
    if rest.takeWhile isAmountCh = [] then none
    else some (rest.takeWhile isAmountCh,
               rateSnd ((rest.dropWhile isAmountCh).dropWhile isSpaceCh))
  | _ => none

/-- `re.search(r"\$([\d,\.]+)(?:\s*-\s*\$([\d,\.]+))?", s)`. -/
def searchRate (s : List Char) : Option (List Char × Option (List Char)) :=
  searchWith rateAt s

/-- Match of `\$([\d,\.]+)` at the start of `cs`. -/
def amountAt (cs : List Char) : Option (List Char) :=
  match cs with
  | '$' :: rest =>
    if rest.takeWhile isAmountCh = [] then none else some (rest.takeWhile isAmountCh)
  | _ => none

/-- `re.search(r"\$([\d,\.]+)", s)`. -/
def searchAmount (s : List Char) : Option (List Char) := searchWith amountAt s

/-- `functions.parse_hourly_rate`.  `none` input is `np.nan`/missing; a
non-`ok` result is a raised `ValueError` from `float`. -/
def parse_hourly_rate : Option (List Char) → Py (Option ℚ × Option ℚ)
  | none => .ok (none, none)
  | some s =>
    match searchRate s with
    | none => .ok (none, none)
    | some (g1, og2) =>
      match pyFloat g1 with
      | none => .exn
      | some mn =>
        match og2 with
        | none => .ok (some mn, some mn)
        | some g2 =>
          match pyFloat g2 with
          | none => .exn
          | some mx => .ok (some mn, some mx)

/-- `functions.parse_hours_per_week`. -/
def parse_hours_per_week : Option (List Char) → Option ℚ
  | none => none
  | some s =>
    match searchHours s with
    | some n => some (n : ℚ)
    | none => if containsSub lessThanLit (lowerStr s) then some 25 else none

/-- `functions.parse_duration_weeks`. -/
def parse_duration_weeks : Option (List Char) → Option ℚ
  | none => none
  | some s =>
    match searchRange s with
    | some (a, b) => some ((((a : ℚ) + (b : ℚ)) / 2) * 4)
    | none =>
      match searchMonths s with
      | some n => some ((n : ℚ) * 4)
      | none => if containsSub lessThanMonthLit (lowerStr s) then some 2 else none

/-- `functions.parse_fixed_price`. -/
def parse_fixed_price : Option (List Char) → Py (Option ℚ)
  | none => .ok none
  | some s =>
    match searchAmount s with
    | none => .ok none
    | some g =>
      match pyFloat g with
      | none => .exn
      | some v => .ok (some v)

/-- `np.nanmean([x, y])`: mean of the non-`nan` entries, `nan` when both are. -/
def nanmean2 : Option ℚ → Option ℚ → Option ℚ
  | none, none => none
  | some a, none => some a
  | none, some b => some b
  | some a, some b => some ((a + b) / 2)

/-- `functions.estimate_total_pay` on the two row fields it reads.  A `none`
field models `np.nan` or any non-string cell (the `isinstance(.., str)` guard
fails on both). -/
def estimate_total_pay (hf db : Option (List Char)) : Py (Option ℚ) :=
  match hf with
  | some s =>
    if containsSub hourlyLit (lowerStr s) then
      match parse_hourly_rate (some s) with
      | .exn => .exn
      | .ok (mn, mx) =>
        let avg := nanmean2 mn mx
        let hpw := (parse_hours_per_week db).getD 30
        let wks := (parse_duration_weeks db).getD 8
        .ok (avg.map (fun a => a * hpw * wks))
    else if containsSub fixedLit (lowerStr s) then
      parse_fixed_price db
    else .ok none
  | none => .ok none

/-- The pay-type classification of `functions.get_pay_type`; the function's
`np.nan` return ("neither substring, or not a string") is `Unknown`. -/
inductive PayTy : Type
  | Hourly : PayTy
  | Fixed : PayTy
  | Unknown : PayTy
deriving DecidableEq, Repr

/-- `functions.get_pay_type`. -/
def get_pay_type : Option (List Char) → PayTy
  | some s =>
    if containsSub hourlyLit (lowerStr s) then .Hourly
    else if containsSub fixedLit (lowerStr s) then .Fixed
    else .Unknown
  | none => .Unknown

/-- The `search_term_map` dict of `functions.standardize_search_term_column`. -/
def searchTermPairs : List (List Char × List Char) :=
  [("ai".data, "AI".data), ("artificial".data, "AI".data), ("intelligent".data, "AI".data),
   ("machine".data, "ML".data), ("learning".data, "ML".data),
   ("statistics".data, "statistics".data),
   ("engineer".data, "data engineering".data), ("data".data, "data engineering".data),
   ("python".data, "data engineering".data)]

/-- `Series.map` through the dict: exact-match lookup, missing key ↦ `NaN`. -/
def searchTermMap (s : List Char) : Option (List Char) := searchTermPairs.lookup s

/-- `Series.ffill`: each `NaN` is replaced by the accumulated most recent
non-`NaN` value (`last`), which starts out absent. -/
def ffillGo {α : Type} (last : Option α) : List (Option α) → List (Option α)
  | [] => []
  | none :: t => last :: ffillGo last t
  | some x :: t => some x :: ffillGo (some x) t

/-- `functions.standardize_search_term_column` on the `search_term` column:
forward-fill, then `str.lower` (which keeps `NaN`), then the dict map. -/
def standardize_search_term_column (col : List (Option (List Char))) :
    List (Option (List Char)) :=
  (((ffillGo none col).map (Option.map lowerStr)).map (fun o => o.bind searchTermMap))

/-- The `non_skills` set of `functions.clean_and_standardize_skill` (the
source list, duplicate included). -/
def nonSkills : List (List Char) :=
  (["female", "budget", "company", "project", "article", "review", "advertisement",
    "advertising", "media", "english", "accuracy verification", "casual tone",
    "presentation", "resume", "error detection", "draft documentation",
    "product knowledge", "client management", "communication skills",
    "critical thinking skills", "personal computer", "smartphone",
    "phone communication", "accounts payable", "accounts receivable",
    "customer experience", "heap", "review", "scientist", "engineer",
    "engineering", "learn", "learning"]).map String.data

/-- The `canonical_map` synonym table of `functions.clean_and_standardize_skill`. -/
def canonicalPairs : List (List Char × List Char) :=
  ([("ai", "Artificial Intelligence"), ("artificial", "Artificial Intelligence"),
    ("artificial intelligence", "Artificial Intelligence"),
    ("machine", "Machine Learning"), ("machine learning", "Machine Learning"),
    ("ml", "Machine Learning"), ("python", "Python"), ("data", "Data Science"),
    ("data science", "Data Science"), ("statistics", "Statistics"),
    ("statistical", "Statistics"), ("statistic", "Statistics"),
    ("deep learning", "Deep Learning"), ("nlp", "Natural Language Processing"),
    ("natural language processing", "Natural Language Processing")]).map
    (fun p => (p.1.data, p.2.data))

/-- `functions.clean_and_standardize_skill` (`None` return is `none`). -/
def clean_and_standardize_skill : Option (List Char) → Option (List Char)
  | none => none
  | some s =>
    let st := pyStrip s
    if st = [] then none
    else if (match st with
             | '+' :: ds => (!ds.isEmpty) && ds.all isDigitCh
             | _ => false) then none
    else
      let lo := lowerStr st
      if nonSkills.contains lo then none
      else
        match canonicalPairs.lookup lo with
        | some canon => some canon
        | none => some (pyTitle st)

/-- The two free-text fields of a raw row that the derived pay columns of
`1-data_prep.py` read. -/
structure RawRow : Type where
  hourly_or_fixed : Option (List Char)
  duration_or_budget : Option (List Char)
deriving DecidableEq, Repr

/-- The derived columns of a normalized row of `1-data_prep.py`;
`estimated_total_pay` is total because only rows where it is non-`NaN` are
retained. -/
structure NormRow : Type where
  pay_type : PayTy
  hourly_rate_min : Option ℚ
  hourly_rate_max : Option ℚ
  est_hours_per_week : Option ℚ
  est_duration_weeks : Option ℚ
  fixed_price : Option ℚ
  estimated_total_pay : ℚ
deriving DecidableEq, Repr

/-- The row pipeline of `1-data_prep.py` lines 37-47: compute the derived
columns, then keep the row only when `estimated_total_pay` is non-`NaN`
(`.ok none` = row dropped).  Deduplication and column selection do not change
any of these per-row fields. -/
def normalizeRow (r : RawRow) : Py (Option NormRow) :=
  match parse_hourly_rate r.hourly_or_fixed with
  | .exn => .exn
  | .ok (mn, mx) =>
    match estimate_total_pay r.hourly_or_fixed r.duration_or_budget with
    | .exn => .exn
    | .ok pay =>
      match parse_fixed_price r.duration_or_budget with
      | .exn => .exn
      | .ok fp =>
        match pay with
        | none => .ok none
        | some p =>
          .ok (some
            { pay_type := get_pay_type r.hourly_or_fixed
              hourly_rate_min := mn
              hourly_rate_max := mx
              est_hours_per_week := parse_hours_per_week r.duration_or_budget
              est_duration_weeks := parse_duration_weeks r.duration_or_budget
              fixed_price := fp
              estimated_total_pay := p })

/-! ### Reference (spec-side) definitions

These follow the words of the specification and are compared with the
source-side functions above. -/

/-- Reference definition following spec §4.2: the arithmetic mean of the
min/max rates ignoring absent components; if only one is present, it is used;
if both are absent, the mean is absent. -/
def specAvg : Option ℚ → Option ℚ → Option ℚ
  | none, none => none
  | some a, none => some a
  | none, some b => some b
  | some a, some b => some ((a + b) / 2)

/-- Reference definition following spec §4.2, hourly branch: average rate from
the parsed min/max pair, hours-per-week with fallback 30, duration weeks with
fallback 8, multiplied; absent when the average is absent. -/
def specEstimateHourly (r : Option ℚ × Option ℚ) (hpw wks : Option ℚ) : Option ℚ :=
  (specAvg r.1 r.2).map (fun a => a * hpw.getD 30 * wks.getD 8)

/-- The concatenation `digits · plus · spaces · unit · /week · rest` of the
pieces of an hours token. -/
def hoursCore (ds pl sp su r : List Char) : List Char :=
  ds ++ (pl ++ (sp ++ (su ++ (slashWeekLit ++ r))))

/-- Spec-side reading of the hours pattern: `s` contains an integer with value
`n` immediately preceding an optional `+`, optional whitespace, and an
`hr`/`hrs` unit followed by `/week`. -/
def HoursToken (s : List Char) (n : Nat) : Prop :=
  ∃ p ds pl sp su r,
    s = p ++ hoursCore ds pl sp su r ∧
    ds ≠ [] ∧ (∀ c ∈ ds, isDigitCh c = true) ∧
    (pl = [] ∨ pl = ['+']) ∧ (∀ c ∈ sp, isSpaceCh c = true) ∧
    (su = hrLit ∨ su = hrLit ++ ['s']) ∧
    natOfDigits ds = n

/-- The concatenation `digits · spaces · to · spaces · digits · spaces ·
month · rest` of the pieces of a duration-range token. -/
def rangeCore (da s1 s2 db s3 r : List Char) : List Char :=
  da ++ (s1 ++ (toLit ++ (s2 ++ (db ++ (s3 ++ (monthLit ++ r))))))

/-- Spec-side reading of the duration range pattern: `s` contains
`A to B month...` with values `a`, `b`. -/
def RangeToken (s : List Char) (a b : Nat) : Prop :=
  ∃ p da s1 s2 db s3 r,
    s = p ++ rangeCore da s1 s2 db s3 r ∧
    da ≠ [] ∧ (∀ c ∈ da, isDigitCh c = true) ∧
    (∀ c ∈ s1, isSpaceCh c = true) ∧ (∀ c ∈ s2, isSpaceCh c = true) ∧
    db ≠ [] ∧ (∀ c ∈ db, isDigitCh c = true) ∧
    (∀ c ∈ s3, isSpaceCh c = true) ∧
    natOfDigits da = a ∧ natOfDigits db = b

/-- The concatenation `digits · spaces · month · rest` of the pieces of a
single-duration token. -/
def monthCore (ds sp r : List Char) : List Char :=
  ds ++ (sp ++ (monthLit ++ r))

/-- Spec-side reading of the single-duration pattern: `s` contains
`N month...` with value `n`. -/
def MonthToken (s : List Char) (n : Nat) : Prop :=
  ∃ p ds sp r,
    s = p ++ monthCore ds sp r ∧
    ds ≠ [] ∧ (∀ c ∈ ds, isDigitCh c = true) ∧
    (∀ c ∈ sp, isSpaceCh c = true) ∧
    natOfDigits ds = n

/-- Spec-side reading of a currency amount: `s` contains a `$` immediately
followed by at least one amount character (digit, comma or dot). -/
def DollarAmt (s : List Char) : Prop :=
  ∃ p g r, s = p ++ '$' :: (g ++ r) ∧ g ≠ [] ∧ ∀ c ∈ g, isAmountCh c = true

/-- Spec-side case-insensitive substring containment: the lowercased text has
`pat` as a contiguous substring. -/
def ContainsLower (pat s : List Char) : Prop :=
  ∃ l r, lowerStr s = l ++ pat ++ r

/-- The most recent non-absent value in `xs`, starting from `last`: the
declarative description of what forward-fill puts at a position. -/
def lastSomeFrom {α : Type} (last : Option α) (xs : List (Option α)) : Option α :=
  xs.foldl (fun a o => match o with | some x => some x | none => a) last

end Upwork

/-! ### Helper lemmas -/

namespace Upwork

theorem mem_of_isDigitCh {c : Char} (h : isDigitCh c = true) : c ∈ digitChars :=
  of_decide_eq_true h

theorem mem_of_isSpaceCh {c : Char} (h : isSpaceCh c = true) : c ∈ spaceChars :=
  of_decide_eq_true h

theorem isSpaceCh_props {c : Char} (h : isSpaceCh c = true) :
    isDigitCh c = false ∧ isAmountCh c = false ∧ c ≠ '+' ∧ c ≠ 'h' ∧ c ≠ 't' ∧
    c ≠ 'm' ∧ c ≠ '$' ∧ c ≠ '-' ∧ c ≠ '/' := by
  have hm := mem_of_isSpaceCh h
  simp only [spaceChars, List.mem_cons, List.not_mem_nil, or_false] at hm
  rcases hm with rfl | rfl | rfl | rfl | rfl | rfl <;> exact (by decide)

theorem isDigitCh_props {c : Char} (h : isDigitCh c = true) :
    isSpaceCh c = false ∧ isAmountCh c = true ∧ c ≠ '+' ∧ c ≠ 'h' ∧ c ≠ 't' ∧
    c ≠ 'm' ∧ c ≠ '$' ∧ c ≠ '-' ∧ c ≠ '/' := by
  have hm := mem_of_isDigitCh h
  simp only [digitChars, List.mem_cons, List.not_mem_nil, or_false] at hm
  rcases hm with rfl | rfl | rfl | rfl | rfl | rfl | rfl | rfl | rfl | rfl <;>
    exact (by decide)

theorem isAmountCh_props {c : Char} (h : isAmountCh c = true) :
    c ≠ '$' ∧ c ≠ '-' ∧ isSpaceCh c = false := by
  have hm : isDigitCh c = true ∨ c = ',' ∨ c = '.' := by
    simp only [isAmountCh, Bool.or_eq_true, decide_eq_true_eq] at h
    tauto
  rcases hm with hd | rfl | rfl
  · exact ⟨(isDigitCh_props hd).2.2.2.2.2.2.1, (isDigitCh_props hd).2.2.2.2.2.2.2.1,
      (isDigitCh_props hd).1⟩
  · exact (by decide)
  · exact (by decide)

theorem mem_takeWhile_pred {p : Char → Bool} :
    ∀ {l : List Char} {x : Char}, x ∈ l.takeWhile p → p x = true := by
  intro l
  induction l with
  | nil => intro x hx; simp [List.takeWhile] at hx
  | cons a t ih =>
    intro x hx
    by_cases ha : p a
    · rw [List.takeWhile_cons_of_pos ha] at hx
      rcases List.mem_cons.mp hx with rfl | hx
      · exact ha
      · exact ih hx
    · rw [List.takeWhile_cons_of_neg ha] at hx
      simp at hx

theorem takeWhile_app_of {p : Char → Bool} :
    ∀ (l rest : List Char), (∀ c ∈ l, p c = true) →
      (∀ c t, rest = c :: t → p c = false) →
      (l ++ rest).takeWhile p = l ∧ (l ++ rest).dropWhile p = rest := by
  intro l
  induction l with
  | nil =>
    intro rest _ hr
    cases rest with
    | nil => simp [List.takeWhile, List.dropWhile]
    | cons c t =>
      have hc : p c = false := hr c t rfl
      constructor
      · simp only [List.nil_append]
        exact List.takeWhile_cons_of_neg (by simp [hc])
      · simp only [List.nil_append]
        exact List.dropWhile_cons_of_neg (by simp [hc])
  | cons a l ih =>
    intro rest hl hr
    have ha : p a = true := hl a (List.mem_cons_self a l)
    have hl' : ∀ c ∈ l, p c = true := fun c hc => hl c (List.mem_cons_of_mem a hc)
    obtain ⟨h1, h2⟩ := ih rest hl' hr
    constructor
    · rw [List.cons_append, List.takeWhile_cons_of_pos ha, h1]
    · rw [List.cons_append, List.dropWhile_cons_of_pos ha, h2]

theorem dropWhile_app_of {p : Char → Bool} (l rest : List Char)
    (hl : ∀ c ∈ l, p c = true) (hr : ∀ c t, rest = c :: t → p c = false) :
    (l ++ rest).dropWhile p = rest :=
  (takeWhile_app_of l rest hl hr).2

theorem isPrefixOf_eq_true_iff :
    ∀ (p l : List Char), p.isPrefixOf l = true ↔ ∃ t, l = p ++ t := by
  intro p
  induction p with
  | nil => intro l; simp [List.isPrefixOf]
  | cons a p ih =>
    intro l
    cases l with
    | nil =>
      simp only [List.isPrefixOf]
      constructor
      · intro h; exact absurd h (by simp)
      · rintro ⟨t, ht⟩; exact absurd ht (by simp)
    | cons b t =>
      simp only [List.isPrefixOf, Bool.and_eq_true, beq_iff_eq]
      rw [ih t]
      constructor
      · rintro ⟨rfl, u, rfl⟩; exact ⟨u, rfl⟩
      · rintro ⟨u, hu⟩
        have hb : b = a := by
          have := congrArg (List.head? ·) hu
          simpa using this
        subst hb
        refine ⟨rfl, u, ?_⟩
        have := congrArg (List.tail ·) hu
        simpa using this

theorem containsSub_iff (p : List Char) :
    ∀ (s : List Char), containsSub p s = true ↔ ∃ l r, s = l ++ p ++ r := by
  intro s
  induction s with
  | nil =>
    simp only [containsSub]
    rw [isPrefixOf_eq_true_iff]
    constructor
    · rintro ⟨t, ht⟩; exact ⟨[], t, by simpa using ht⟩
    · rintro ⟨l, r, hlr⟩
      cases l with
      | nil => exact ⟨r, by simpa using hlr⟩
      | cons a t => exact absurd hlr (by simp)
  | cons c t ih =>
    simp only [containsSub, Bool.or_eq_true]
    rw [isPrefixOf_eq_true_iff, ih]
    constructor
    · rintro (⟨u, hu⟩ | ⟨l, r, hlr⟩)
      · exact ⟨[], u, by simpa using hu⟩
      · exact ⟨c :: l, r, by simp [hlr]⟩
    · rintro ⟨l, r, hlr⟩
      cases l with
      | nil => exact Or.inl ⟨r, by simpa using hlr⟩
      | cons a l' =>
        right
        have hc : c = a := by
          have := congrArg (List.head? ·) hlr
          simpa using this
        refine ⟨l', r, ?_⟩
        have := congrArg (List.tail ·) hlr
        simpa using this

theorem searchWith_sound {α : Type} (f : List Char → Option α) :
    ∀ (s : List Char) (v : α), searchWith f s = some v →
      ∃ p rest, s = p ++ rest ∧ f rest = some v := by
  intro s
  induction s with
  | nil => intro v h; exact ⟨[], [], rfl, h⟩
  | cons c t ih =>
    intro v h
    simp only [searchWith] at h
    cases hf : f (c :: t) with
    | some w =>
      rw [hf] at h
      simp only [] at h
      exact ⟨[], c :: t, rfl, by rw [hf, h]⟩
    | none =>
      rw [hf] at h
      obtain ⟨p, rest, hp, hrest⟩ := ih v h
      exact ⟨c :: p, rest, by simp [hp], hrest⟩

theorem searchWith_isSome_of_suffix {α : Type} (f : List Char → Option α) :
    ∀ (pre rest : List Char), (f rest).isSome = true →
      (searchWith f (pre ++ rest)).isSome = true := by
  intro pre
  induction pre with
  | nil =>
    intro rest h
    cases rest with
    | nil => simpa [searchWith] using h
    | cons c t =>
      simp only [List.nil_append, searchWith]
      cases hf : f (c :: t) with
      | some w => simp
      | none => rw [hf] at h; simp at h
  | cons c p ih =>
    intro rest h
    simp only [List.cons_append, searchWith]
    cases hf : f (c :: (p ++ rest)) with
    | some w => simp
    | none => exact ih rest h

theorem isPrefixOf_append_self (p t : List Char) : p.isPrefixOf (p ++ t) = true :=
  (isPrefixOf_eq_true_iff p (p ++ t)).mpr ⟨t, rfl⟩

theorem head_of_append_all {P : Char → Bool} {l : List Char} (rest : List Char)
    (hne : l ≠ []) (hall : ∀ c ∈ l, P c = true) :
    ∀ c t, l ++ rest = c :: t → P c = true := by
  cases l with
  | nil => exact absurd rfl hne
  | cons a l' =>
    intro c t hct
    rw [List.cons_append] at hct
    injection hct with h1 _
    exact h1 ▸ hall a (List.mem_cons_self a l')

theorem head_false_of_spaces {P : Char → Bool} {sp rest : List Char}
    (hsp : ∀ c ∈ sp, isSpaceCh c = true)
    (hspP : ∀ c, isSpaceCh c = true → P c = false)
    (hrest : ∀ c t, rest = c :: t → P c = false) :
    ∀ c t, sp ++ rest = c :: t → P c = false := by
  cases sp with
  | nil => simpa using hrest
  | cons a sp' =>
    intro c t hct
    rw [List.cons_append] at hct
    injection hct with h1 _
    exact h1 ▸ hspP a (hsp a (List.mem_cons_self a sp'))

theorem dropPlusHead_decomp (l : List Char) :
    ∃ pl, l = pl ++ dropPlusHead l ∧ (pl = [] ∨ pl = ['+']) := by
  unfold dropPlusHead
  by_cases h : l.head? = some '+'
  · rw [if_pos h]
    cases l with
    | nil => simp at h
    | cons c t =>
      have hc : c = '+' := by simpa using h
      subst hc
      exact ⟨['+'], by simp, Or.inr rfl⟩
  · rw [if_neg h]
    exact ⟨[], by simp, Or.inl rfl⟩

theorem dropPlusHead_plus (t : List Char) : dropPlusHead ('+' :: t) = t := by
  simp [dropPlusHead]

theorem dropPlusHead_no_plus {l : List Char} (h : ∀ c t, l = c :: t → c ≠ '+') :
    dropPlusHead l = l := by
  unfold dropPlusHead
  cases l with
  | nil => simp
  | cons c t =>
    have := h c t rfl
    rw [if_neg (by simp [this])]

theorem hrsWeekTail_sound {r3 : List Char} (h : hrsWeekTail r3 = true) :
    ∃ su r, r3 = su ++ (slashWeekLit ++ r) ∧ (su = hrLit ∨ su = hrLit ++ ['s']) := by
  unfold hrsWeekTail at h
  split at h
  · obtain ⟨t, ht⟩ := (isPrefixOf_eq_true_iff _ _).mp h
    exact ⟨hrLit ++ ['s'], t, by simp [hrLit, ht], Or.inr rfl⟩
  · obtain ⟨t, ht⟩ := (isPrefixOf_eq_true_iff _ _).mp h
    exact ⟨hrLit, t, by simp [hrLit, ht], Or.inl rfl⟩
  · exact absurd h (by simp)

theorem hrsWeekTail_complete (r : List Char) {su : List Char}
    (hsu : su = hrLit ∨ su = hrLit ++ ['s']) :
    hrsWeekTail (su ++ (slashWeekLit ++ r)) = true := by
  rcases hsu with rfl | rfl
  · show hrsWeekTail (hrLit ++ (slashWeekLit ++ r)) = true
    simp only [hrLit, slashWeekLit, List.cons_append, List.nil_append]
    rw [hrsWeekTail]
    · exact isPrefixOf_append_self _ _
    · intro r5 hh
      injection hh with h1 _
      exact absurd h1 (by decide)
  · show hrsWeekTail ((hrLit ++ ['s']) ++ (slashWeekLit ++ r)) = true
    simp only [hrLit, slashWeekLit, List.cons_append, List.nil_append]
    rw [hrsWeekTail]
    exact isPrefixOf_append_self _ _

theorem hoursAt_sound {cs : List Char} {n : Nat} (h : hoursAt cs = some n) :
    ∃ ds pl sp su r, cs = hoursCore ds pl sp su r ∧ ds ≠ [] ∧
      (∀ c ∈ ds, isDigitCh c = true) ∧ (pl = [] ∨ pl = ['+']) ∧
      (∀ c ∈ sp, isSpaceCh c = true) ∧ (su = hrLit ∨ su = hrLit ++ ['s']) ∧
      natOfDigits ds = n := by
  unfold hoursAt at h
  by_cases hds : cs.takeWhile isDigitCh = []
  · rw [if_pos hds] at h
    exact absurd h (by simp)
  · rw [if_neg hds] at h
    by_cases htl :
        hrsWeekTail ((dropPlusHead (cs.dropWhile isDigitCh)).dropWhile isSpaceCh) = true
    · rw [if_pos htl] at h
      obtain ⟨su, r, h3, hsu⟩ := hrsWeekTail_sound htl
      obtain ⟨pl, hpd, hpl⟩ := dropPlusHead_decomp (cs.dropWhile isDigitCh)
      refine ⟨cs.takeWhile isDigitCh, pl,
        (dropPlusHead (cs.dropWhile isDigitCh)).takeWhile isSpaceCh, su, r, ?_, hds,
        fun c hc => mem_takeWhile_pred hc, hpl,
        fun c hc => mem_takeWhile_pred hc, hsu, Option.some.inj h⟩
      unfold hoursCore
      conv_lhs => rw [← List.takeWhile_append_dropWhile (p := isDigitCh) (l := cs)]
      congr 1
      conv_lhs => rw [hpd]
      congr 1
      conv_lhs =>
        rw [← List.takeWhile_append_dropWhile (p := isSpaceCh)
          (l := dropPlusHead (cs.dropWhile isDigitCh))]
      congr 1
    · rw [if_neg htl] at h
      exact absurd h (by simp)

theorem hoursAt_complete {ds pl sp su : List Char} (r : List Char)
    (hds : ds ≠ []) (hdig : ∀ c ∈ ds, isDigitCh c = true)
    (hpl : pl = [] ∨ pl = ['+']) (hsp : ∀ c ∈ sp, isSpaceCh c = true)
    (hsu : su = hrLit ∨ su = hrLit ++ ['s']) :
    hoursAt (hoursCore ds pl sp su r) = some (natOfDigits ds) := by
  have hsuhead : ∀ c t, su ++ (slashWeekLit ++ r) = c :: t → c = 'h' := by
    rcases hsu with rfl | rfl <;>
      · intro c t hct
        simp only [hrLit, List.cons_append, List.nil_append] at hct
        injection hct with h1 _
        exact h1.symm
  have hrest_nodig : ∀ c t, pl ++ (sp ++ (su ++ (slashWeekLit ++ r))) = c :: t →
      isDigitCh c = false := by
    rcases hpl with rfl | rfl
    · simp only [List.nil_append]
      refine head_false_of_spaces hsp (fun c hc => (isSpaceCh_props hc).1) ?_
      intro c t hct
      rw [hsuhead c t hct]
      decide
    · intro c t hct
      rw [List.cons_append] at hct
      injection hct with h1 _
      rw [← h1]
      decide
  have hsplit := takeWhile_app_of (p := isDigitCh) ds
    (pl ++ (sp ++ (su ++ (slashWeekLit ++ r)))) hdig hrest_nodig
  unfold hoursAt hoursCore
  rw [hsplit.1, hsplit.2, if_neg hds]
  have hdrop : dropPlusHead (pl ++ (sp ++ (su ++ (slashWeekLit ++ r)))) =
      sp ++ (su ++ (slashWeekLit ++ r)) := by
    rcases hpl with rfl | rfl
    · rw [List.nil_append]
      apply dropPlusHead_no_plus
      refine fun c t hct => ?_
      rcases hc : isSpaceCh c with _ | _
      · -- c is not a space: it is the head of su, hence h
        cases sp with
        | nil =>
          rw [List.nil_append] at hct
          rw [hsuhead c t hct]
          decide
        | cons a sp' =>
          rw [List.cons_append] at hct
          injection hct with h1 _
          have ha := isSpaceCh_props (hsp a (List.mem_cons_self a sp'))
          exact h1 ▸ ha.2.2.1
      · -- c is a space, hence not +
        exact (isSpaceCh_props hc).2.2.1
    · rw [List.cons_append]
      exact dropPlusHead_plus _
  rw [hdrop]
  have hdropsp : (sp ++ (su ++ (slashWeekLit ++ r))).dropWhile isSpaceCh =
      su ++ (slashWeekLit ++ r) := by
    apply dropWhile_app_of sp _ hsp
    intro c t hct
    rw [hsuhead c t hct]
    decide
  rw [hdropsp, if_pos (hrsWeekTail_complete r hsu)]

theorem searchHours_sound {s : List Char} {n : Nat} (h : searchHours s = some n) :
    HoursToken s n := by
  obtain ⟨p, rest, rfl, hat⟩ := searchWith_sound hoursAt s n h
  obtain ⟨ds, pl, sp, su, r, hcore, h1, h2, h3, h4, h5, h6⟩ := hoursAt_sound hat
  exact ⟨p, ds, pl, sp, su, r, by rw [hcore], h1, h2, h3, h4, h5, h6⟩

theorem searchHours_isSome {s : List Char} {n : Nat} (h : HoursToken s n) :
    (searchHours s).isSome = true := by
  obtain ⟨p, ds, pl, sp, su, r, rfl, h1, h2, h3, h4, h5, _⟩ := h
  apply searchWith_isSome_of_suffix hoursAt p
  rw [hoursAt_complete r h1 h2 h3 h4 h5]
  rfl

theorem monthLit_head (r : List Char) : ∀ c t, monthLit ++ r = c :: t → c = 'm' := by
  intro c t hct
  simp only [monthLit, List.cons_append] at hct
  injection hct with h1 _
  exact h1.symm

theorem monthsAt_sound {cs : List Char} {n : Nat} (h : monthsAt cs = some n) :
    ∃ ds sp r, cs = monthCore ds sp r ∧ ds ≠ [] ∧
      (∀ c ∈ ds, isDigitCh c = true) ∧ (∀ c ∈ sp, isSpaceCh c = true) ∧
      natOfDigits ds = n := by
  unfold monthsAt at h
  by_cases hds : cs.takeWhile isDigitCh = []
  · rw [if_pos hds] at h
    exact absurd h (by simp)
  · rw [if_neg hds] at h
    by_cases hpre :
        monthLit.isPrefixOf ((cs.dropWhile isDigitCh).dropWhile isSpaceCh) = true
    · rw [if_pos hpre] at h
      obtain ⟨t, ht⟩ := (isPrefixOf_eq_true_iff _ _).mp hpre
      refine ⟨cs.takeWhile isDigitCh, (cs.dropWhile isDigitCh).takeWhile isSpaceCh, t, ?_,
        hds, fun c hc => mem_takeWhile_pred hc, fun c hc => mem_takeWhile_pred hc,
        Option.some.inj h⟩
      unfold monthCore
      conv_rhs => rw [← ht]
      conv_rhs => rw [List.takeWhile_append_dropWhile]
      conv_rhs => rw [List.takeWhile_append_dropWhile]
    · rw [if_neg hpre] at h
      exact absurd h (by simp)

theorem monthsAt_complete {ds sp : List Char} (r : List Char)
    (hds : ds ≠ []) (hdig : ∀ c ∈ ds, isDigitCh c = true)
    (hsp : ∀ c ∈ sp, isSpaceCh c = true) :
    monthsAt (monthCore ds sp r) = some (natOfDigits ds) := by
  have hnodig : ∀ c t, sp ++ (monthLit ++ r) = c :: t → isDigitCh c = false := by
    refine head_false_of_spaces hsp (fun c hc => (isSpaceCh_props hc).1) ?_
    intro c t hct
    rw [monthLit_head r c t hct]
    decide
  have hsplit := takeWhile_app_of (p := isDigitCh) ds (sp ++ (monthLit ++ r)) hdig hnodig
  unfold monthsAt monthCore
  rw [hsplit.1, hsplit.2, if_neg hds]
  have hdropsp : (sp ++ (monthLit ++ r)).dropWhile isSpaceCh = monthLit ++ r := by
    apply dropWhile_app_of sp _ hsp
    intro c t hct
    rw [monthLit_head r c t hct]
    decide
  rw [hdropsp, if_pos (isPrefixOf_append_self _ _)]

theorem searchMonths_sound {s : List Char} {n : Nat} (h : searchMonths s = some n) :
    MonthToken s n := by
  obtain ⟨p, rest, rfl, hat⟩ := searchWith_sound monthsAt s n h
  obtain ⟨ds, sp, r, hcore, h1, h2, h3, h4⟩ := monthsAt_sound hat
  exact ⟨p, ds, sp, r, by rw [hcore], h1, h2, h3, h4⟩

theorem searchMonths_isSome {s : List Char} {n : Nat} (h : MonthToken s n) :
    (searchMonths s).isSome = true := by
  obtain ⟨p, ds, sp, r, rfl, h1, h2, h3, _⟩ := h
  apply searchWith_isSome_of_suffix monthsAt p
  rw [monthsAt_complete r h1 h2 h3]
  rfl

theorem rangeTail_sound {l : List Char} {b : Nat} (h : rangeTail l = some b) :
    ∃ s2 db s3 r, l = toLit ++ (s2 ++ (db ++ (s3 ++ (monthLit ++ r)))) ∧
      (∀ c ∈ s2, isSpaceCh c = true) ∧ db ≠ [] ∧ (∀ c ∈ db, isDigitCh c = true) ∧
      (∀ c ∈ s3, isSpaceCh c = true) ∧ natOfDigits db = b := by
  unfold rangeTail at h
  split at h
  · rename_i r2
    by_cases hdb : (r2.dropWhile isSpaceCh).takeWhile isDigitCh = []
    · rw [if_pos hdb] at h
      exact absurd h (by simp)
    · rw [if_neg hdb] at h
      by_cases hpre : monthLit.isPrefixOf
          (((r2.dropWhile isSpaceCh).dropWhile isDigitCh).dropWhile isSpaceCh) = true
      · rw [if_pos hpre] at h
        obtain ⟨t, ht⟩ := (isPrefixOf_eq_true_iff _ _).mp hpre
        refine ⟨r2.takeWhile isSpaceCh, (r2.dropWhile isSpaceCh).takeWhile isDigitCh,
          ((r2.dropWhile isSpaceCh).dropWhile isDigitCh).takeWhile isSpaceCh, t, ?_,
          fun c hc => mem_takeWhile_pred hc, hdb, fun c hc => mem_takeWhile_pred hc,
          fun c hc => mem_takeWhile_pred hc, Option.some.inj h⟩
        conv_rhs => rw [← ht]
        conv_rhs => rw [List.takeWhile_append_dropWhile]
        conv_rhs => rw [List.takeWhile_append_dropWhile]
        conv_rhs => rw [List.takeWhile_append_dropWhile]
        simp [toLit]
      · rw [if_neg hpre] at h
        exact absurd h (by simp)
  · exact absurd h (by simp)

theorem rangeTail_complete {s2 db s3 : List Char} (r : List Char)
    (hs2 : ∀ c ∈ s2, isSpaceCh c = true) (hdb : db ≠ [])
    (hdig : ∀ c ∈ db, isDigitCh c = true) (hs3 : ∀ c ∈ s3, isSpaceCh c = true) :
    rangeTail (toLit ++ (s2 ++ (db ++ (s3 ++ (monthLit ++ r))))) =
      some (natOfDigits db) := by
  simp only [toLit, List.cons_append, List.nil_append]
  rw [rangeTail]
  have hdw1 : (s2 ++ (db ++ (s3 ++ (monthLit ++ r)))).dropWhile isSpaceCh =
      db ++ (s3 ++ (monthLit ++ r)) := by
    apply dropWhile_app_of s2 _ hs2
    exact fun c t hct => (isDigitCh_props (head_of_append_all _ hdb hdig c t hct)).1
  rw [hdw1]
  have hnodig : ∀ c t, s3 ++ (monthLit ++ r) = c :: t → isDigitCh c = false := by
    refine head_false_of_spaces hs3 (fun c hc => (isSpaceCh_props hc).1) ?_
    intro c t hct
    rw [monthLit_head r c t hct]
    decide
  have hsplit := takeWhile_app_of (p := isDigitCh) db (s3 ++ (monthLit ++ r)) hdig hnodig
  rw [hsplit.1, hsplit.2, if_neg hdb]
  have hdw2 : (s3 ++ (monthLit ++ r)).dropWhile isSpaceCh = monthLit ++ r := by
    apply dropWhile_app_of s3 _ hs3
    intro c t hct
    rw [monthLit_head r c t hct]
    decide
  rw [hdw2, if_pos (isPrefixOf_append_self _ _)]

theorem rangeAt_sound {cs : List Char} {a b : Nat} (h : rangeAt cs = some (a, b)) :
    ∃ da s1 s2 db s3 r, cs = rangeCore da s1 s2 db s3 r ∧ da ≠ [] ∧
      (∀ c ∈ da, isDigitCh c = true) ∧ (∀ c ∈ s1, isSpaceCh c = true) ∧
      (∀ c ∈ s2, isSpaceCh c = true) ∧ db ≠ [] ∧ (∀ c ∈ db, isDigitCh c = true) ∧
      (∀ c ∈ s3, isSpaceCh c = true) ∧ natOfDigits da = a ∧ natOfDigits db = b := by
  unfold rangeAt at h
  by_cases hda : cs.takeWhile isDigitCh = []
  · rw [if_pos hda] at h
    exact absurd h (by simp)
  · rw [if_neg hda] at h
    cases hrt : rangeTail ((cs.dropWhile isDigitCh).dropWhile isSpaceCh) with
    | none =>
      rw [hrt] at h
      exact absurd h (by simp)
    | some b' =>
      rw [hrt] at h
      have hp : (natOfDigits (cs.takeWhile isDigitCh), b') = (a, b) := Option.some.inj h
      obtain ⟨s2, db, s3, r, hl, hsp2, hdb, hdig2, hsp3, hnb⟩ := rangeTail_sound hrt
      refine ⟨cs.takeWhile isDigitCh, (cs.dropWhile isDigitCh).takeWhile isSpaceCh,
        s2, db, s3, r, ?_, hda, fun c hc => mem_takeWhile_pred hc,
        fun c hc => mem_takeWhile_pred hc, hsp2, hdb, hdig2, hsp3,
        congrArg Prod.fst hp, by rw [hnb]; exact congrArg Prod.snd hp⟩
      unfold rangeCore
      conv_rhs => rw [← hl]
      conv_rhs => rw [List.takeWhile_append_dropWhile]
      conv_rhs => rw [List.takeWhile_append_dropWhile]

theorem rangeAt_complete {da s1 s2 db s3 : List Char} (r : List Char)
    (hda : da ≠ []) (hdig : ∀ c ∈ da, isDigitCh c = true)
    (hs1 : ∀ c ∈ s1, isSpaceCh c = true) (hs2 : ∀ c ∈ s2, isSpaceCh c = true)
    (hdb : db ≠ []) (hdig2 : ∀ c ∈ db, isDigitCh c = true)
    (hs3 : ∀ c ∈ s3, isSpaceCh c = true) :
    rangeAt (rangeCore da s1 s2 db s3 r) =
      some (natOfDigits da, natOfDigits db) := by
  have htohead : ∀ c t, toLit ++ (s2 ++ (db ++ (s3 ++ (monthLit ++ r)))) = c :: t →
      c = 't' := by
    intro c t hct
    simp only [toLit, List.cons_append] at hct
    injection hct with h1 _
    exact h1.symm
  have hnodig : ∀ c t,
      s1 ++ (toLit ++ (s2 ++ (db ++ (s3 ++ (monthLit ++ r))))) = c :: t →
      isDigitCh c = false := by
    refine head_false_of_spaces hs1 (fun c hc => (isSpaceCh_props hc).1) ?_
    intro c t hct
    rw [htohead c t hct]
    decide
  have hsplit := takeWhile_app_of (p := isDigitCh) da
    (s1 ++ (toLit ++ (s2 ++ (db ++ (s3 ++ (monthLit ++ r)))))) hdig hnodig
  unfold rangeAt rangeCore
  rw [hsplit.1, hsplit.2, if_neg hda]
  have hdwsp : (s1 ++ (toLit ++ (s2 ++ (db ++ (s3 ++ (monthLit ++ r)))))).dropWhile
      isSpaceCh = toLit ++ (s2 ++ (db ++ (s3 ++ (monthLit ++ r)))) := by
    apply dropWhile_app_of s1 _ hs1
    intro c t hct
    rw [htohead c t hct]
    decide
  rw [hdwsp, rangeTail_complete r hs2 hdb hdig2 hs3]

theorem searchRange_sound {s : List Char} {a b : Nat}
    (h : searchRange s = some (a, b)) : RangeToken s a b := by
  obtain ⟨p, rest, rfl, hat⟩ := searchWith_sound rangeAt s (a, b) h
  obtain ⟨da, s1, s2, db, s3, r, hcore, h1, h2, h3, h4, h5, h6, h7, h8, h9⟩ :=
    rangeAt_sound hat
  exact ⟨p, da, s1, s2, db, s3, r, by rw [hcore], h1, h2, h3, h4, h5, h6, h7, h8, h9⟩

theorem searchRange_isSome {s : List Char} {a b : Nat} (h : RangeToken s a b) :
    (searchRange s).isSome = true := by
  obtain ⟨p, da, s1, s2, db, s3, r, rfl, h1, h2, h3, h4, h5, h6, h7, _, _⟩ := h
  apply searchWith_isSome_of_suffix rangeAt p
  rw [rangeAt_complete r h1 h2 h3 h4 h5 h6 h7]
  rfl

theorem rateAt_sound {cs : List Char} {g1 : List Char} {og2 : Option (List Char)}
    (h : rateAt cs = some (g1, og2)) :
    ∃ rest, cs = '$' :: rest ∧ g1 = rest.takeWhile isAmountCh ∧ g1 ≠ [] := by
  unfold rateAt at h
  split at h
  · rename_i rest
    by_cases hg : rest.takeWhile isAmountCh = []
    · rw [if_pos hg] at h
      exact absurd h (by simp)
    · rw [if_neg hg] at h
      have hp := Option.some.inj h
      have h1 : rest.takeWhile isAmountCh = g1 := congrArg Prod.fst hp
      exact ⟨rest, rfl, h1.symm, h1 ▸ hg⟩
  · exact absurd h (by simp)

theorem searchRate_isSome_iff (s : List Char) :
    (searchRate s).isSome = true ↔ DollarAmt s := by
  constructor
  · intro h
    obtain ⟨v, hv⟩ := Option.isSome_iff_exists.mp h
    obtain ⟨g1, og2⟩ := v
    obtain ⟨p, rest, hs, hat⟩ := searchWith_sound rateAt s (g1, og2) hv
    obtain ⟨rest', hrest, hg1, hne⟩ := rateAt_sound hat
    refine ⟨p, rest'.takeWhile isAmountCh, rest'.dropWhile isAmountCh, ?_,
      hg1 ▸ hne, fun c hc => mem_takeWhile_pred hc⟩
    rw [hs, hrest, List.takeWhile_append_dropWhile]
  · rintro ⟨p, g, r, rfl, hg, hall⟩
    apply searchWith_isSome_of_suffix rateAt p ('$' :: (g ++ r))
    cases g with
    | nil => exact absurd rfl hg
    | cons a g' =>
      have ha : isAmountCh a = true := hall a (List.mem_cons_self a g')
      simp only [rateAt]
      rw [if_neg (by rw [List.cons_append, List.takeWhile_cons_of_pos ha]; simp)]
      rfl

theorem amountAt_sound {cs : List Char} {g : List Char}
    (h : amountAt cs = some g) :
    ∃ rest, cs = '$' :: rest ∧ g = rest.takeWhile isAmountCh ∧ g ≠ [] := by
  unfold amountAt at h
  split at h
  · rename_i rest
    by_cases hg : rest.takeWhile isAmountCh = []
    · rw [if_pos hg] at h
      exact absurd h (by simp)
    · rw [if_neg hg] at h
      have h1 : rest.takeWhile isAmountCh = g := Option.some.inj h
      exact ⟨rest, rfl, h1.symm, h1 ▸ hg⟩
  · exact absurd h (by simp)

theorem searchAmount_isSome_iff (s : List Char) :
    (searchAmount s).isSome = true ↔ DollarAmt s := by
  constructor
  · intro h
    obtain ⟨g, hv⟩ := Option.isSome_iff_exists.mp h
    obtain ⟨p, rest, hs, hat⟩ := searchWith_sound amountAt s g hv
    obtain ⟨rest', hrest, hg1, hne⟩ := amountAt_sound hat
    refine ⟨p, rest'.takeWhile isAmountCh, rest'.dropWhile isAmountCh, ?_,
      hg1 ▸ hne, fun c hc => mem_takeWhile_pred hc⟩
    rw [hs, hrest, List.takeWhile_append_dropWhile]
  · rintro ⟨p, g, r, rfl, hg, hall⟩
    apply searchWith_isSome_of_suffix amountAt p ('$' :: (g ++ r))
    cases g with
    | nil => exact absurd rfl hg
    | cons a g' =>
      have ha : isAmountCh a = true := hall a (List.mem_cons_self a g')
      simp only [amountAt]
      rw [if_neg (by rw [List.cons_append, List.takeWhile_cons_of_pos ha]; simp)]
      rfl

theorem parse_hourly_rate_presence {s : List Char} {mn mx : Option ℚ}
    (h : parse_hourly_rate (some s) = .ok (mn, mx)) :
    mn.isSome = (searchRate s).isSome ∧ mx.isSome = (searchRate s).isSome := by
  replace h : (match searchRate s with
      | none => Py.ok ((none : Option ℚ), (none : Option ℚ))
      | some (g1, og2) =>
        match pyFloat g1 with
        | none => Py.exn
        | some mnv =>
          match og2 with
          | none => Py.ok (some mnv, some mnv)
          | some g2 =>
            match pyFloat g2 with
            | none => Py.exn
            | some mxv => Py.ok (some mnv, some mxv)) = Py.ok (mn, mx) := h
  split at h
  · rename_i hsr
    have hp := Py.ok.inj h
    have hmn : (none : Option ℚ) = mn := congrArg Prod.fst hp
    have hmx : (none : Option ℚ) = mx := congrArg Prod.snd hp
    rw [← hmn, ← hmx, hsr]
    exact ⟨rfl, rfl⟩
  · rename_i g1 og2 hsr
    split at h
    · exact Py.noConfusion h
    · rename_i mnv hf
      split at h
      · have hp := Py.ok.inj h
        have hmn : some mnv = mn := congrArg Prod.fst hp
        have hmx : some mnv = mx := congrArg Prod.snd hp
        rw [← hmn, ← hmx, hsr]
        exact ⟨rfl, rfl⟩
      · split at h
        · exact Py.noConfusion h
        · rename_i mxv hf2
          have hp := Py.ok.inj h
          have hmn : some mnv = mn := congrArg Prod.fst hp
          have hmx : some mxv = mx := congrArg Prod.snd hp
          rw [← hmn, ← hmx, hsr]
          exact ⟨rfl, rfl⟩

theorem parse_fixed_price_presence {s : List Char} {fp : Option ℚ}
    (h : parse_fixed_price (some s) = .ok fp) :
    fp.isSome = (searchAmount s).isSome := by
  replace h : (match searchAmount s with
      | none => Py.ok (none : Option ℚ)
      | some g =>
        match pyFloat g with
        | none => Py.exn
        | some v => Py.ok (some v)) = Py.ok fp := h
  split at h
  · rename_i hsa
    have hp := Py.ok.inj h
    rw [← hp, hsa]
    rfl
  · rename_i g hsa
    split at h
    · exact Py.noConfusion h
    · rename_i v hf
      have hp := Py.ok.inj h
      rw [← hp, hsa]
      rfl

theorem ffillGo_length {α : Type} :
    ∀ (col : List (Option α)) (last : Option α),
      (ffillGo last col).length = col.length := by
  intro col
  induction col with
  | nil => intro last; rfl
  | cons o t ih =>
    intro last
    cases o with
    | none => simp [ffillGo, ih]
    | some x => simp [ffillGo, ih]

theorem ffillGo_get {α : Type} :
    ∀ (col : List (Option α)) (last : Option α) (i : Nat)
      (h : i < (ffillGo last col).length),
      (ffillGo last col).get ⟨i, h⟩ = lastSomeFrom last (col.take (i + 1)) := by
  intro col
  induction col with
  | nil =>
    intro last i h
    simp [ffillGo] at h
  | cons o t ih =>
    intro last i h
    cases o with
    | none =>
      cases i with
      | zero => rfl
      | succ j =>
        have h' : j < (ffillGo last t).length := by
          have : (ffillGo last (none :: t)) = last :: ffillGo last t := rfl
          rw [this] at h
          exact Nat.lt_of_succ_lt_succ h
        calc (ffillGo last (none :: t)).get ⟨j + 1, h⟩
            = (ffillGo last t).get ⟨j, h'⟩ := rfl
          _ = lastSomeFrom last (t.take (j + 1)) := ih last j h'
          _ = lastSomeFrom last ((none :: t).take (j + 1 + 1)) := rfl
    | some x =>
      cases i with
      | zero => rfl
      | succ j =>
        have h' : j < (ffillGo (some x) t).length := by
          have : (ffillGo last (some x :: t)) = some x :: ffillGo (some x) t := rfl
          rw [this] at h
          exact Nat.lt_of_succ_lt_succ h
        calc (ffillGo last (some x :: t)).get ⟨j + 1, h⟩
            = (ffillGo (some x) t).get ⟨j, h'⟩ := rfl
          _ = lastSomeFrom (some x) (t.take (j + 1)) := ih (some x) j h'
          _ = lastSomeFrom last ((some x :: t).take (j + 1 + 1)) := rfl

theorem get_map_map {α β γ : Type} (f : α → β) (g : β → γ) :
    ∀ (l : List α) (i : Nat) (h : i < ((l.map f).map g).length),
      ((l.map f).map g).get ⟨i, h⟩ = g (f (l.get ⟨i, by simpa using h⟩)) := by
  intro l
  induction l with
  | nil => intro i h; simp at h
  | cons a t ih =>
    intro i h
    cases i with
    | zero => rfl
    | succ j => exact ih j (by simpa using h)

theorem pyFloat_75 : pyFloat ("75.00".data) = some 75 := by
  show some (ratOfParts ("75".data) ("00".data)) = some (75 : ℚ)
  have h : ratOfParts ("75".data) ("00".data) = 75 := by
    show (natOfDigits ("75".data) : ℚ) +
      (natOfDigits ("00".data) : ℚ) / 10 ^ ("00".data).length = 75
    rw [show natOfDigits ("75".data) = 75 from rfl,
        show natOfDigits ("00".data) = 0 from rfl,
        show ("00".data).length = 2 from rfl]
    norm_num
  rw [h]

theorem pyFloat_100 : pyFloat ("100.00".data) = some 100 := by
  show some (ratOfParts ("100".data) ("00".data)) = some (100 : ℚ)
  have h : ratOfParts ("100".data) ("00".data) = 100 := by
    show (natOfDigits ("100".data) : ℚ) +
      (natOfDigits ("00".data) : ℚ) / 10 ^ ("00".data).length = 100
    rw [show natOfDigits ("100".data) = 100 from rfl,
        show natOfDigits ("00".data) = 0 from rfl,
        show ("00".data).length = 2 from rfl]
    norm_num
  rw [h]

theorem pyFloat_20 : pyFloat ("20.00".data) = some 20 := by
  show some (ratOfParts ("20".data) ("00".data)) = some (20 : ℚ)
  have h : ratOfParts ("20".data) ("00".data) = 20 := by
    show (natOfDigits ("20".data) : ℚ) +
      (natOfDigits ("00".data) : ℚ) / 10 ^ ("00".data).length = 20
    rw [show natOfDigits ("20".data) = 20 from rfl,
        show natOfDigits ("00".data) = 0 from rfl,
        show ("00".data).length = 2 from rfl]
    norm_num
  rw [h]

theorem pyFloat_40 : pyFloat ("40.00".data) = some 40 := by
  show some (ratOfParts ("40".data) ("00".data)) = some (40 : ℚ)
  have h : ratOfParts ("40".data) ("00".data) = 40 := by
    show (natOfDigits ("40".data) : ℚ) +
      (natOfDigits ("00".data) : ℚ) / 10 ^ ("00".data).length = 40
    rw [show natOfDigits ("40".data) = 40 from rfl,
        show natOfDigits ("00".data) = 0 from rfl,
        show ("00".data).length = 2 from rfl]
    norm_num
  rw [h]

theorem parse_hourly_rate_eval2 {s g1 g2 : List Char} {a b : ℚ}
    (hsr : searchRate s = some (g1, some g2)) (h1 : pyFloat g1 = some a)
    (h2 : pyFloat g2 = some b) :
    parse_hourly_rate (some s) = .ok (some a, some b) := by
  have h0 : parse_hourly_rate (some s) = (match searchRate s with
      | none => Py.ok (none, none)
      | some (g1', og2) =>
        match pyFloat g1' with
        | none => Py.exn
        | some mnv =>
          match og2 with
          | none => Py.ok (some mnv, some mnv)
          | some g2' =>
            match pyFloat g2' with
            | none => Py.exn
            | some mxv => Py.ok (some mnv, some mxv)) := rfl
  rw [h0, hsr]
  show (match pyFloat g1 with
      | none => (Py.exn : Py (Option ℚ × Option ℚ))
      | some mnv =>
        match pyFloat g2 with
        | none => Py.exn
        | some mxv => Py.ok (some mnv, some mxv)) = Py.ok (some a, some b)
  rw [h1]
  show (match pyFloat g2 with
      | none => (Py.exn : Py (Option ℚ × Option ℚ))
      | some mxv => Py.ok (some a, some mxv)) = Py.ok (some a, some b)
  rw [h2]

theorem parse_hourly_rate_eval1 {s g1 : List Char} {a : ℚ}
    (hsr : searchRate s = some (g1, none)) (h1 : pyFloat g1 = some a) :
    parse_hourly_rate (some s) = .ok (some a, some a) := by
  have h0 : parse_hourly_rate (some s) = (match searchRate s with
      | none => Py.ok (none, none)
      | some (g1', og2) =>
        match pyFloat g1' with
        | none => Py.exn
        | some mnv =>
          match og2 with
          | none => Py.ok (some mnv, some mnv)
          | some g2' =>
            match pyFloat g2' with
            | none => Py.exn
            | some mxv => Py.ok (some mnv, some mxv)) := rfl
  rw [h0, hsr]
  show (match pyFloat g1 with
      | none => (Py.exn : Py (Option ℚ × Option ℚ))
      | some mnv => Py.ok (some mnv, some mnv)) = Py.ok (some a, some a)
  rw [h1]

theorem rate_75_100 :
    parse_hourly_rate (some ("Hourly: $75.00 - $100.00".data)) =
      .ok (some 75, some 100) :=
  parse_hourly_rate_eval2 (by decide) pyFloat_75 pyFloat_100

theorem rate_75 :
    parse_hourly_rate (some ("Hourly: $75.00".data)) = .ok (some 75, some 75) :=
  parse_hourly_rate_eval1 (by decide) pyFloat_75

theorem rate_20_40 :
    parse_hourly_rate (some ("Hourly: $20.00 - $40.00".data)) =
      .ok (some 20, some 40) :=
  parse_hourly_rate_eval2 (by decide) pyFloat_20 pyFloat_40

theorem duration_eq_match (s : List Char) :
    parse_duration_weeks (some s) = (match searchRange s with
      | some (a, b) => some ((((a : ℚ) + (b : ℚ)) / 2) * 4)
      | none =>
        match searchMonths s with
        | some n => some ((n : ℚ) * 4)
        | none =>
          if containsSub lessThanMonthLit (lowerStr s) then some 2 else none) := rfl

theorem duration_1to3 : parse_duration_weeks (some ("1 to 3 months".data)) = some 8 := by
  rw [duration_eq_match,
    show searchRange ("1 to 3 months".data) = some (1, 3) from by decide]
  show some ((((1 : Nat) : ℚ) + ((3 : Nat) : ℚ)) / 2 * 4) = some 8
  norm_num

theorem duration_2m : parse_duration_weeks (some ("2 months".data)) = some 8 := by
  rw [duration_eq_match,
    show searchRange ("2 months".data) = none from by decide,
    show searchMonths ("2 months".data) = some 2 from by decide]
  show some (((2 : Nat) : ℚ) * 4) = some 8
  norm_num

theorem duration_less1m :
    parse_duration_weeks (some ("Less than 1 month".data)) = some 4 := by
  rw [duration_eq_match,
    show searchRange ("Less than 1 month".data) = none from by decide,
    show searchMonths ("Less than 1 month".data) = some 1 from by decide]
  show some (((1 : Nat) : ℚ) * 4) = some 4
  norm_num

end Upwork

/-! ### The claims -/

namespace Upwork

/-- C9: `get_pay_type` performs a case-insensitive substring check for
"hourly" and then for "fixed", the first match winning; text containing
neither, or absent input, yields Unknown. -/
theorem c9_get_pay_type_spec :
    (∀ s, get_pay_type (some s) = PayTy.Hourly ↔ ContainsLower hourlyLit s) ∧
    (∀ s, get_pay_type (some s) = PayTy.Fixed ↔
      (¬ ContainsLower hourlyLit s ∧ ContainsLower fixedLit s)) ∧
    (∀ s, get_pay_type (some s) = PayTy.Unknown ↔
      (¬ ContainsLower hourlyLit s ∧ ¬ ContainsLower fixedLit s)) ∧
    get_pay_type none = PayTy.Unknown := by
  have hiff : ∀ pat s, ContainsLower pat s ↔ containsSub pat (lowerStr s) = true :=
    fun pat s => (containsSub_iff pat (lowerStr s)).symm
  refine ⟨?_, ?_, ?_, rfl⟩
  · intro s
    rw [hiff hourlyLit s]
    unfold get_pay_type
    by_cases h1 : containsSub hourlyLit (lowerStr s) = true
    · simp [h1]
    · by_cases h2 : containsSub fixedLit (lowerStr s) = true <;> simp [h1, h2]
  · intro s
    rw [hiff hourlyLit s, hiff fixedLit s]
    unfold get_pay_type
    by_cases h1 : containsSub hourlyLit (lowerStr s) = true
    · simp [h1]
    · by_cases h2 : containsSub fixedLit (lowerStr s) = true <;> simp [h1, h2]
  · intro s
    rw [hiff hourlyLit s, hiff fixedLit s]
    unfold get_pay_type
    by_cases h1 : containsSub hourlyLit (lowerStr s) = true
    · simp [h1]
    · by_cases h2 : containsSub fixedLit (lowerStr s) = true <;> simp [h1, h2]

/-- Witness for C9 at a concrete input: "Fixed-price" is classified Fixed. -/
theorem c9_witness : get_pay_type (some ("Fixed-price".data)) = PayTy.Fixed :=
  (c9_get_pay_type_spec.2.1 _).mpr
    ⟨fun hc => absurd ((containsSub_iff _ _).mpr hc) (by decide),
     ⟨[], "-price".data, by decide⟩⟩

/-- C10: `parse_hourly_rate` never returns a pair in which exactly one of min
and max is absent: whenever it returns, both components are present or both
are absent. -/
theorem c10_parse_hourly_rate_both_or_neither
    (t : Option (List Char)) (p : Option ℚ × Option ℚ)
    (h : parse_hourly_rate t = .ok p) : p.1.isSome = true ↔ p.2.isSome = true := by
  cases t with
  | none =>
    have hp : ((none : Option ℚ), (none : Option ℚ)) = p := Py.ok.inj h
    rw [← hp]
  | some s =>
    obtain ⟨mn, mx⟩ := p
    obtain ⟨h1, h2⟩ := parse_hourly_rate_presence h
    show mn.isSome = true ↔ mx.isSome = true
    rw [h1, h2]

/-- Witness for C10 at a concrete input with both components absent. -/
theorem c10_witness :
    (((none : Option ℚ), (none : Option ℚ)).1.isSome = true ↔
      ((none : Option ℚ), (none : Option ℚ)).2.isSome = true) :=
  c10_parse_hourly_rate_both_or_neither (some ("no money here".data))
    (none, none) (by decide)

/-- C8: for every entry of the skill synonym table, applying
`clean_and_standardize_skill` to the canonical form produced for that entry
returns that same canonical form (the canonicalizer is a fixed point on its
own output). -/
theorem c8_skill_canonical_fixed_point :
    ∀ p ∈ canonicalPairs, clean_and_standardize_skill (some p.2) = some p.2 := by
  decide

/-- Witness for C8 at the first synonym-table entry. -/
theorem c8_witness :
    clean_and_standardize_skill (some ("Artificial Intelligence".data)) =
      some ("Artificial Intelligence".data) :=
  c8_skill_canonical_fixed_point ("ai".data, "Artificial Intelligence".data)
    (by decide)

/-- C6: the search-term canonicalizer forward-fills each absent value with the
most recent non-absent value above it (leading absents remain absent), then
lowercases, then maps through the exact-match table, values missing from the
table becoming absent: position `i` of the output is the most recent
non-absent input at or above `i`, lowercased and looked up. -/
theorem c6_standardize_search_term_spec :
    (∀ col, (standardize_search_term_column col).length = col.length) ∧
    (∀ col (i : Nat) (h : i < (standardize_search_term_column col).length),
      (standardize_search_term_column col).get ⟨i, h⟩ =
        ((lastSomeFrom none (col.take (i + 1))).map lowerStr).bind searchTermMap) := by
  constructor
  · intro col
    unfold standardize_search_term_column
    rw [List.length_map, List.length_map, ffillGo_length]
  · intro col i h
    exact (get_map_map (Option.map lowerStr) (fun o => o.bind searchTermMap)
      (ffillGo none col) i h).trans (by rw [ffillGo_get])

/-- Witness for C6 on the spec's example column, at index 3 (filled from
"AI") and showing the head absent value stays absent via index 0. -/
theorem c6_witness :
    (standardize_search_term_column
      [none, some ("AI".data), none, none, some ("Data".data)]).get
        ⟨3, by decide⟩ = some ("AI".data) :=
  (c6_standardize_search_term_spec.2
    [none, some ("AI".data), none, none, some ("Data".data)] 3 (by decide)).trans
    (by decide)

/-- C2 (amended): `parse_hours_per_week` returns the integer immediately
preceding an `hrs/week` unit token (optional `+`, `hr` or `hrs`) when one is
present — this takes precedence over the less-than fallback, so
"Less than 30 hrs/week" yields 30.0, not the 25.0 the spec's example states;
when no token matches, it returns 25 exactly when the text contains
"less than" case-insensitively (e.g. "Less than 30 hours/week"), and absent
otherwise; absent input yields absent. -/
theorem c2_parse_hours_per_week_spec :
    (∀ s n, searchHours s = some n →
      HoursToken s n ∧ parse_hours_per_week (some s) = some (n : ℚ)) ∧
    (∀ s n, HoursToken s n → (searchHours s).isSome = true) ∧
    (∀ s, searchHours s = none →
      parse_hours_per_week (some s) =
        (if containsSub lessThanLit (lowerStr s) then some 25 else none)) ∧
    parse_hours_per_week none = none ∧
    parse_hours_per_week (some ("30+ hrs/week".data)) = some 30 ∧
    parse_hours_per_week (some ("Less than 30 hrs/week".data)) = some 30 ∧
    parse_hours_per_week (some ("Less than 30 hours/week".data)) = some 25 ∧
    parse_hours_per_week (some ("unspecified".data)) = none := by
  refine ⟨?_, fun s n h => searchHours_isSome h, ?_, rfl, by decide, by decide,
    by decide, by decide⟩
  · intro s n h
    refine ⟨searchHours_sound h, ?_⟩
    simp only [parse_hours_per_week]
    rw [h]
  · intro s h
    simp only [parse_hours_per_week]
    rw [h]

/-- C2 counterexample: on "Less than 30 hrs/week" the code returns 30.0 (the
numeric token matches first), not the claimed 25.0. -/
theorem c2_counterexample :
    parse_hours_per_week (some ("Less than 30 hrs/week".data)) = some 30 ∧
    some (30 : ℚ) ≠ some (25 : ℚ) :=
  ⟨by decide, by decide⟩

/-- Witness for C2 at the concrete token "30+ hrs/week". -/
theorem c2_witness :
    HoursToken ("30+ hrs/week".data) 30 ∧
    parse_hours_per_week (some ("30+ hrs/week".data)) = some 30 :=
  c2_parse_hours_per_week_spec.1 ("30+ hrs/week".data) 30 (by decide)

/-- C3 (amended): `parse_duration_weeks` returns `((A+B)/2)*4` when the text
contains a range `A to B month...`, else `N*4` when it contains `N month...`
— this takes precedence over the less-than fallback, so "Less than 1 month"
yields 4.0 (the token "1 month" matches), not the 2.0 the spec's example
states; the fixed fallback 2 applies only when neither pattern matches and
the lowercased text contains "less than 1 month" (e.g. "Less than 1 MONTH");
else absent; the range pattern is checked before the single-value pattern. -/
theorem c3_parse_duration_weeks_spec :
    (∀ s a b, searchRange s = some (a, b) →
      RangeToken s a b ∧
      parse_duration_weeks (some s) = some ((((a : ℚ) + (b : ℚ)) / 2) * 4)) ∧
    (∀ s a b, RangeToken s a b → (searchRange s).isSome = true) ∧
    (∀ s n, searchRange s = none → searchMonths s = some n →
      MonthToken s n ∧ parse_duration_weeks (some s) = some ((n : ℚ) * 4)) ∧
    (∀ s n, MonthToken s n → (searchMonths s).isSome = true) ∧
    (∀ s, searchRange s = none → searchMonths s = none →
      parse_duration_weeks (some s) =
        (if containsSub lessThanMonthLit (lowerStr s) then some 2 else none)) ∧
    parse_duration_weeks none = none ∧
    parse_duration_weeks (some ("1 to 3 months".data)) = some 8 ∧
    parse_duration_weeks (some ("2 months".data)) = some 8 ∧
    parse_duration_weeks (some ("Less than 1 month".data)) = some 4 ∧
    parse_duration_weeks (some ("Less than 1 MONTH".data)) = some 2 := by
  refine ⟨?_, fun s a b h => searchRange_isSome h, ?_,
    fun s n h => searchMonths_isSome h, ?_, rfl, duration_1to3, duration_2m,
    duration_less1m, by decide⟩
  · intro s a b h
    refine ⟨searchRange_sound h, ?_⟩
    simp only [parse_duration_weeks]
    rw [h]
  · intro s n h1 h2
    refine ⟨searchMonths_sound h2, ?_⟩
    simp only [parse_duration_weeks]
    rw [h1, h2]
  · intro s h1 h2
    simp only [parse_duration_weeks]
    rw [h1, h2]

/-- C3 counterexample: on "Less than 1 month" the code returns 4.0 (the
single-month token matches first), not the claimed 2.0. -/
theorem c3_counterexample :
    parse_duration_weeks (some ("Less than 1 month".data)) = some 4 ∧
    some (4 : ℚ) ≠ some (2 : ℚ) :=
  ⟨duration_less1m, by decide⟩

/-- Witness for C3 at the concrete range token "1 to 3 months". -/
theorem c3_witness :
    RangeToken ("1 to 3 months".data) 1 3 ∧
    parse_duration_weeks (some ("1 to 3 months".data)) = some 8 := by
  have h := c3_parse_duration_weeks_spec.1 ("1 to 3 months".data) 1 3 (by decide)
  exact ⟨h.1, by rw [h.2]; norm_num⟩

/-- C1: on pay-type text containing "hourly" whose rate parse returns, the
estimate is the §4.2 reference value: mean of the parsed min/max rates
ignoring absent components (absent when both absent), times hours-per-week
with fallback 30, times duration-weeks with fallback 8 — and the spec's
example yields 7200.0; but on "Hourly: $2.2.2" the code raises a ValueError
instead of returning the reference value. -/
theorem c1_estimate_total_pay_spec :
    (∀ pt db mn mx, containsSub hourlyLit (lowerStr pt) = true →
      parse_hourly_rate (some pt) = .ok (mn, mx) →
      estimate_total_pay (some pt) db =
        .ok (specEstimateHourly (mn, mx) (parse_hours_per_week db)
              (parse_duration_weeks db))) ∧
    estimate_total_pay (some ("Hourly: $20.00 - $40.00".data))
      (some ("unspecified".data)) = .ok (some 7200) ∧
    estimate_total_pay (some ("Hourly: $2.2.2".data)) none = .exn := by
  have hgen : ∀ pt db mn mx, containsSub hourlyLit (lowerStr pt) = true →
      parse_hourly_rate (some pt) = .ok (mn, mx) →
      estimate_total_pay (some pt) db =
        .ok (specEstimateHourly (mn, mx) (parse_hours_per_week db)
              (parse_duration_weeks db)) := by
    intro pt db mn mx hct hpr
    simp only [estimate_total_pay]
    rw [if_pos hct, hpr]
    cases mn <;> cases mx <;> rfl
  refine ⟨hgen, ?_, by decide⟩
  rw [hgen ("Hourly: $20.00 - $40.00".data) (some ("unspecified".data))
      (some 20) (some 40) (by decide) rate_20_40,
    show parse_hours_per_week (some ("unspecified".data)) = none from by decide,
    show parse_duration_weeks (some ("unspecified".data)) = none from by decide]
  show Py.ok (some (((20 : ℚ) + 40) / 2 * 30 * 8)) = Py.ok (some 7200)
  norm_num

/-- Witness for C1: the formula instance at rate text "$20.00 - $40.00" with
no duration text, evaluating through the reference definition. -/
theorem c1_witness :
    estimate_total_pay (some ("Hourly: $20.00 - $40.00".data)) none =
      .ok (specEstimateHourly (some 20, some 40) none none) :=
  c1_estimate_total_pay_spec.1 ("Hourly: $20.00 - $40.00".data) none
    (some 20) (some 40) (by decide) rate_20_40

/-- C4: absent input yields absent output for all four parsers and the two
digit parsers are total, but `parse_hourly_rate` and `parse_fixed_price`
raise a ValueError on "$1.2.3" — the matched amount token "1.2.3" is not a
valid float literal — instead of returning a value. -/
theorem c4_error_handling :
    parse_hourly_rate none = .ok (none, none) ∧
    parse_hours_per_week none = none ∧
    parse_duration_weeks none = none ∧
    parse_fixed_price none = .ok none ∧
    parse_hourly_rate (some ("$1.2.3".data)) = .exn ∧
    parse_fixed_price (some ("$1.2.3".data)) = .exn :=
  ⟨rfl, rfl, rfl, rfl, by decide, by decide⟩

/-- C5: `parse_hourly_rate` behaves as documented on the spec's examples and
on missing input, and a present component implies a currency amount in the
text; but on "$," — a text with no currency amount, only a separator — the
code raises a ValueError from `float('')` instead of returning
(absent, absent). -/
theorem c5_parse_hourly_rate_spec :
    (∀ s mn mx, parse_hourly_rate (some s) = .ok (mn, mx) → mn.isSome = true →
      DollarAmt s) ∧
    parse_hourly_rate (some ("Hourly: $75.00 - $100.00".data)) =
      .ok (some 75, some 100) ∧
    parse_hourly_rate (some ("Hourly: $75.00".data)) = .ok (some 75, some 75) ∧
    parse_hourly_rate none = .ok (none, none) ∧
    parse_hourly_rate (some ("$,".data)) = .exn := by
  refine ⟨?_, rate_75_100, rate_75, rfl, by decide⟩
  intro s mn mx h hsome
  have hp := (parse_hourly_rate_presence h).1
  rw [hsome] at hp
  exact (searchRate_isSome_iff s).mp hp.symm

/-- Witness for C5: the parsed "Hourly: $75.00" has a present component, and
the theorem recovers the currency amount in the text. -/
theorem c5_witness : DollarAmt ("Hourly: $75.00".data) :=
  c5_parse_hourly_rate_spec.1 _ (some 75) (some 75) rate_75 rfl

/-- C7 counterexample: the retained row built from pay-type text
"Fixed price: $500" and budget text "$300" has pay_type Fixed yet
hourly_rate_min (and max) present — presence is not restricted to Hourly. -/
theorem c7_counterexample :
    normalizeRow ⟨some ("Fixed price: $500".data), some ("$300".data)⟩ =
      .ok (some ⟨PayTy.Fixed, some 500, some 500, none, none, some 300, 300⟩) ∧
    PayTy.Fixed ≠ PayTy.Hourly :=
  ⟨by decide, by decide⟩

/-- C7 (amended): in every retained row, hourly_rate_min and hourly_rate_max
are present exactly when the pay-type text contains a currency amount, and
fixed_price exactly when the duration/budget text contains one — presence
tracks the text patterns, not the pay_type classification. -/
theorem c7_presence_tracks_amounts (hf : List Char) (db : Option (List Char))
    (row : NormRow)
    (h : normalizeRow ⟨some hf, db⟩ = .ok (some row)) :
    (row.hourly_rate_min.isSome = true ↔ DollarAmt hf) ∧
    (row.hourly_rate_max.isSome = true ↔ DollarAmt hf) ∧
    (row.fixed_price.isSome = true ↔ ∃ s, db = some s ∧ DollarAmt s) := by
  replace h : (match parse_hourly_rate (some hf) with
      | .exn => (Py.exn : Py (Option NormRow))
      | .ok (mn, mx) =>
        match estimate_total_pay (some hf) db with
        | .exn => .exn
        | .ok pay =>
          match parse_fixed_price db with
          | .exn => .exn
          | .ok fp =>
            match pay with
            | none => .ok none
            | some p => .ok (some ⟨get_pay_type (some hf), mn, mx,
                parse_hours_per_week db, parse_duration_weeks db, fp, p⟩)) =
      .ok (some row) := h
  split at h
  · exact Py.noConfusion h
  · rename_i mn mx hpr
    split at h
    · exact Py.noConfusion h
    · rename_i pay hest
      split at h
      · exact Py.noConfusion h
      · rename_i fp hfp
        split at h
        · exact Option.noConfusion (Py.ok.inj h)
        · rename_i p hpay
          have hr := Option.some.inj (Py.ok.inj h)
          rw [← hr]
          refine ⟨?_, ?_, ?_⟩
          · show mn.isSome = true ↔ DollarAmt hf
            rw [(parse_hourly_rate_presence hpr).1]
            exact searchRate_isSome_iff hf
          · show mx.isSome = true ↔ DollarAmt hf
            rw [(parse_hourly_rate_presence hpr).2]
            exact searchRate_isSome_iff hf
          · show fp.isSome = true ↔ ∃ s, db = some s ∧ DollarAmt s
            cases db with
            | none =>
              have hfp' : (none : Option ℚ) = fp := Py.ok.inj hfp
              rw [← hfp']
              simp
            | some s =>
              rw [parse_fixed_price_presence hfp, searchAmount_isSome_iff s]
              constructor
              · intro hd
                exact ⟨s, rfl, hd⟩
              · rintro ⟨s', hs', hd⟩
                cases Option.some.inj hs'
                exact hd

/-- Witness for C7 at a retained row: the present hourly_rate_min recovers a
currency amount in the pay-type text. -/
theorem c7_witness : DollarAmt ("fixed $9".data) :=
  (c7_presence_tracks_amounts ("fixed $9".data) (some ("$5".data))
    ⟨PayTy.Fixed, some 9, some 9, none, none, some 5, 5⟩ (by decide)).1.mp
    (by decide)

end Upwork
